import Mathlib

/-!
Verification of the schema version-lineage engine of `kcidb_io/schema/abstract.py`.

The source defines an abstract chain of schema versions (Python classes related
by single inheritance, `MetaVersion` enforcing one base each) together with the
operations classifying, validating, upgrading, counting and merging datasets.
We embed the engine shallowly:

* a dataset (`Data`) is a JSON-object value with an optional declared
  `version` field (the `{major, minor}` pair, `none` when absent or
  unparseable) and an ordered association list of named object collections;
* a schema version (`SchemaVer`) carries the descriptor fields the metaclass
  requires every version class to own (`major`, `minor`, `json`, `tree`) and
  the three per-version behaviours the source leaves abstract or delegates to
  an external collaborator: `get_version` (the `_get_version` classmethod),
  `inherit` (the `_inherit` transform) and `schemaOk` (the outcome of
  `jsonschema.validate` against this version's `json` document — the schema
  document itself is opaque, so it is represented by an identifier and the
  validator's verdict by a boolean function);
* a version class (`VersionCls`) is the class together with its inheritance
  chain: `self` plus the list of strictly older ancestors, newest first, which
  is exactly what the `lineage` generator yields.

`LIGHT_ASSERTS` guards of the source (validity re-checks) are modelled in
their production setting (guard short-circuits, no check); the bare
`assert False` of `upgrade` is kept as an explicit failure outcome.
Python's `deepcopy` is the identity on these immutable values, so the
`copy` flags of `upgrade`/`merge` are dropped.
-/

namespace KcidbIo

/-- An object record inside a collection; its contents are irrelevant to the
engine, which only moves records around, so records are identifiers. -/
abbrev Obj := Nat

/-- A dataset: the optional declared `{major, minor}` version pair and the
named top-level object collections (an ordered association list, mirroring a
JSON object / Python dict in insertion order). -/
structure Data where
  version : Option (Int × Int)
  colls : List (String × List Obj)
deriving DecidableEq, Repr

/-- `data[k]` / `k in data` on the collection fields: the first binding of
key `k`, if any. -/
def Data.get (d : Data) (k : String) : Option (List Obj) :=
  (d.colls.find? (fun p => p.1 == k)).map Prod.snd

/-- Assignment `data[k] = v` on the association list: replace the first
binding of `k`, or append a new binding at the end (Python dict semantics). -/
def setColl (l : List (String × List Obj)) (k : String) (v : List Obj) :
    List (String × List Obj) :=
  match l with
  | [] => [(k, v)]
  | (k', v') :: rest =>
      if k' == k then (k, v) :: rest else (k', v') :: setColl rest k v

/-- `data[k] = v` on a dataset: the version field is untouched. -/
def Data.set (d : Data) (k : String) (v : List Obj) : Data :=
  ⟨d.version, setColl d.colls k v⟩

/-- One schema version class's own members: the descriptor fields `MetaVersion`
requires (`major`, `minor`, the `json` schema document — opaque to the engine,
kept as an identifier — and the `tree` of collection names), the abstract
`_get_version` classmethod, the abstract `_inherit` transform, and the verdict
of the external `jsonschema.validate` collaborator on this version's `json`
document (`schemaOk d` is true exactly when `validate_exactly` does not raise). -/
structure SchemaVer where
  major : Int
  minor : Int
  json : Nat
  tree : List (String × List String)
  get_version : Data → Option (Int × Int)
  inherit : Data → Data
  schemaOk : Data → Bool

/-- A version class with its inheritance chain: the class itself plus its
strictly older ancestors, newest first (the direct base first).  The chain is
linear because `MetaVersion.__init__` asserts `len(bases) == 1`. -/
structure VersionCls where
  self : SchemaVer
  ancestors : List SchemaVer

/-- The `lineage` generator: this version, then every ancestor, newest to
oldest, ending with the first version (the direct child of the abstract
version). -/
def lineage (c : VersionCls) : List SchemaVer := c.self :: c.ancestors

/-- The version classes reachable from a head version and its ancestor list:
the class itself, then its direct base as a class, and so on.  These are the
classes the `lineage` generator yields, each with its own chain. -/
def chainsFrom : SchemaVer → List SchemaVer → List VersionCls
  | s, [] => [⟨s, []⟩]
  | s, a :: rest => ⟨s, a :: rest⟩ :: chainsFrom a rest

/-- Every class of a version's lineage, as a class (with its own chain). -/
def lineageChains (c : VersionCls) : List VersionCls :=
  chainsFrom c.self c.ancestors

/-- The `(major, minor)` descriptor pairs along a chain, newest first.
`MetaVersion` forces every version class to own its numbers and majors to
strictly increase towards the newer end, so within well-formed lineages these
pairs identify the classes; `issubclass` is modelled through them. -/
def chainKeys (c : VersionCls) : List (Int × Int) :=
  (lineage c).map (fun v => (v.major, v.minor))

/-- Python's `issubclass(a, b)` for version classes: `b` is `a` or one of its
ancestors, i.e. `b`'s chain is a suffix of `a`'s chain (compared through the
descriptor pairs, which identify classes in well-formed lineages). -/
def issubclass (a b : VersionCls) : Bool :=
  decide (chainKeys b <:+ chainKeys a)

/-- `MetaVersion.__le__`: raises `NotImplementedError` (modelled as `none`)
when neither class subclasses the other, else returns `issubclass(other, cls)`. -/
def cls_le (cls other : VersionCls) : Option Bool :=
  if !issubclass cls other && !issubclass other cls then none
  else some (issubclass other cls)

/-- `MetaVersion.__ge__`. -/
def cls_ge (cls other : VersionCls) : Option Bool :=
  if !issubclass cls other && !issubclass other cls then none
  else some (issubclass cls other)

/-- `MetaVersion.__lt__`: `issubclass(other, cls) and cls is not other`; class
identity is descriptor-chain identity here. -/
def cls_lt (cls other : VersionCls) : Option Bool :=
  if !issubclass cls other && !issubclass other cls then none
  else some (issubclass other cls && decide (chainKeys cls ≠ chainKeys other))

/-- `MetaVersion.__gt__`. -/
def cls_gt (cls other : VersionCls) : Option Bool :=
  if !issubclass cls other && !issubclass other cls then none
  else some (issubclass cls other && decide (chainKeys cls ≠ chainKeys other))

/-- `Version.is_compatible_exactly`: the declared major equals this version's
major and the declared minor is at most this version's minor.  With the
version pair absent, Python's `major == cls.major` is `None == int`, false,
and `and` short-circuits. -/
def is_compatible_exactly (v : SchemaVer) (d : Data) : Bool :=
  match v.get_version d with
  | none => false
  | some (major, minor) => major == v.major && decide (minor ≤ v.minor)

/-- `Version.get_exactly_compatible`: the first class of the lineage, newest
to oldest, whose `is_compatible_exactly` holds, or `None`. -/
def get_exactly_compatible (c : VersionCls) (d : Data) : Option VersionCls :=
  (lineageChains c).find? (fun v => is_compatible_exactly v.self d)

/-- `Version.is_compatible`. -/
def is_compatible (c : VersionCls) (d : Data) : Bool :=
  (get_exactly_compatible c d).isSome

/-- The outcome of `validate_exactly` / `validate`: the unchanged data, or a
`jsonschema.exceptions.ValidationError` carrying the diagnostics of the named
schema document. -/
inductive ValidateResult where
  | ok (d : Data)
  | error (schema : Nat)
deriving DecidableEq, Repr

/-- `Version.validate_exactly`: `jsonschema.validate` against this version's
own `json` document; on failure the raised error details that document. -/
def validate_exactly (v : SchemaVer) (d : Data) : ValidateResult :=
  if v.schemaOk d then .ok d else .error v.json

/-- `Version.validate`: `(exactly_compatible or cls).validate_exactly(data)` —
the resolved exactly-compatible version's schema, or, when none resolves, this
version's own schema (so the failure details this version's schema). -/
def validate (c : VersionCls) (d : Data) : ValidateResult :=
  match get_exactly_compatible c d with
  | some v => validate_exactly v.self d
  | none => validate_exactly c.self d

/-- `Version.is_valid`: `validate` did not raise. -/
def is_valid (c : VersionCls) (d : Data) : Bool :=
  match validate c d with
  | .ok _ => true
  | .error _ => false

/-- The summation of `Version.count`: over the keys of the resolved version's
`tree`, in order, the length of `data[k]` for every non-empty key present in
the data (`if k and k in data`). -/
def countColls (tree : List (String × List String)) (d : Data) : Nat :=
  match tree with
  | [] => 0
  | (k, _) :: rest =>
      (if k ≠ "" then
        match d.get k with
        | some l => l.length
        | none => 0
      else 0) + countColls rest d

/-- `Version.count`: dereferences `cls.get_exactly_compatible(data).tree`; with
no exactly-compatible version the resolution is `None` and the attribute access
fails with an untyped error (`none` here — under full asserts the validity
assertion fails first, equally not a number and not a `ValidationError`). -/
def count (c : VersionCls) (d : Data) : Option Nat :=
  (get_exactly_compatible c d).map (fun v => countColls v.self.tree d)

/-- `Version.new`: the empty dataset declaring this version's numbers. -/
def new (c : VersionCls) : Data :=
  ⟨some (c.self.major, c.self.minor), []⟩

/-- The outcome of `Version.upgrade`: the upgraded data together with the
classes whose `_inherit` ran, in invocation order (the `newer_versions` list
of the source, each entry's transform invoked exactly once, left to right);
or the `ValidationError` of `cls.validate_exactly`; or the bare
`assert False, "Data validated unexpectedly"`. -/
inductive UpgradeResult where
  | ok (d : Data) (invoked : List SchemaVer)
  | validationError (schema : Nat)
  | assertFailure

/-- The anchor search of `Version.upgrade`: walk the lineage newest to oldest,
prepending each visited class to `newer_versions` (`insert(0, version)`),
until one is exactly compatible; `none` when the loop falls through (the
`for`-`else` branch). -/
def collectNewer : List SchemaVer → Data → List SchemaVer → Option (List SchemaVer)
  | [], _, _ => none
  | v :: rest, d, acc =>
      if is_compatible_exactly v d then some acc
      else collectNewer rest d (v :: acc)

/-- `Version.upgrade`: find the anchor, then run every newer class's
`_inherit` oldest to newest; with no anchor, fail validation against this
class's own schema, and if that validation unexpectedly passes, hit
`assert False`. -/
def upgrade (c : VersionCls) (d : Data) : UpgradeResult :=
  match collectNewer (lineage c) d [] with
  | some newer => .ok (newer.foldl (fun x v => v.inherit x) d) newer
  | none =>
      if c.self.schemaOk d then .assertFailure
      else .validationError c.self.json

/-- The per-source combination step of `Version.merge`: for every key of the
working version's `tree`, in order and with no key excluded, if the source
declares that key, append the source's records after the target's
(`target.get(name, []) + source[name]`). -/
def mergeStep (tree : List (String × List String)) (t s : Data) : Data :=
  match tree with
  | [] => t
  | (k, _) :: rest =>
      match s.get k with
      | some sv => mergeStep rest (t.set k (((t.get k).getD []) ++ sv)) s
      | none => mergeStep rest t s

/-- The source loop of `Version.merge`: resolve the source's version, raise
the target or the source to the more senior of the two, then combine.  A
version that fails to resolve makes `issubclass` receive `None`, an untyped
`TypeError` (`none`); a failing upgrade propagates its error (`none`). -/
def mergeLoop (c : VersionCls) (tv : Option VersionCls) (t : Data) :
    List Data → Option Data
  | [] => some t
  | s :: rest =>
      match tv, get_exactly_compatible c s with
      | some tvc, some svc =>
          if issubclass svc tvc then
            match upgrade svc t with
            | .ok t' _ => mergeLoop c (some svc) (mergeStep svc.self.tree t' s) rest
            | _ => none
          else
            match upgrade tvc s with
            | .ok s' _ => mergeLoop c (some tvc) (mergeStep tvc.self.tree t s') rest
            | _ => none
      | _, _ => none

/-- `Version.merge`. -/
def merge (c : VersionCls) (t : Data) (sources : List Data) : Option Data :=
  mergeLoop c (get_exactly_compatible c t) t sources

/-- Modelled from the spec: the combination step as §4.4 words it, "iterating
every named collection key in the working version's tree (excluding the root
key)" — identical to `mergeStep` except that the root (empty-string) key is
skipped.  Stated only to be compared with the source's `mergeStep`. -/
def mergeStepSpec (tree : List (String × List String)) (t s : Data) : Data :=
  match tree with
  | [] => t
  | (k, _) :: rest =>
      if k = "" then mergeStepSpec rest t s
      else
        match s.get k with
        | some sv => mergeStepSpec rest (t.set k (((t.get k).getD []) ++ sv)) s
        | none => mergeStepSpec rest t s

/-! ### Basic lemmas about datasets -/

theorem Data.get_set_self (d : Data) (k : String) (v : List Obj) :
    (d.set k v).get k = some v := by
  show (Data.mk d.version (setColl d.colls k v)).get k = some v
  unfold Data.get
  induction d.colls with
  | nil => simp [setColl]
  | cons p rest ih =>
      by_cases h : p.1 = k
      · simp [setColl, h, List.find?]
      · simp only [setColl]
        have hb : (p.1 == k) = false := by simp [h]
        simp only [hb, Bool.false_eq_true, if_false]
        simpa [List.find?, hb] using ih

theorem Data.get_set_other (d : Data) (k k' : String) (v : List Obj)
    (h : k' ≠ k) : (d.set k v).get k' = d.get k' := by
  show (Data.mk d.version (setColl d.colls k v)).get k' = d.get k'
  unfold Data.get
  induction d.colls with
  | nil => simp [setColl, List.find?, (by simpa using Ne.symm h : (k == k') = false)]
  | cons p rest ih =>
      by_cases hp : p.1 = k
      · simp [setColl, hp, List.find?, (by simpa using Ne.symm h : (k == k') = false),
          (by simpa [hp] using Ne.symm h : (p.1 == k') = false)]
      · have hb : (p.1 == k) = false := by simp [hp]
        simp only [setColl, hb, Bool.false_eq_true, if_false]
        by_cases hq : p.1 = k'
        · simp [List.find?, hq]
        · have hb' : (p.1 == k') = false := by simp [hq]
          simpa [List.find?, hb'] using ih

theorem Data.version_set (d : Data) (k : String) (v : List Obj) :
    (d.set k v).version = d.version := rfl

/-- The combination step never touches the declared version field. -/
theorem mergeStep_version (tree : List (String × List String)) (t s : Data) :
    (mergeStep tree t s).version = t.version := by
  induction tree generalizing t with
  | nil => rfl
  | cons p rest ih =>
      unfold mergeStep
      cases s.get p.1 with
      | none => exact ih t
      | some sv => simpa [Data.version_set] using ih (t.set p.1 (((t.get p.1).getD []) ++ sv))

/-! ### Lemmas about the anchor search of `upgrade` -/

theorem collectNewer_eq_none (l : List SchemaVer) (d : Data)
    (h : ∀ v ∈ l, is_compatible_exactly v d = false) :
    ∀ acc, collectNewer l d acc = none := by
  induction l with
  | nil => intro acc; rfl
  | cons v rest ih =>
      intro acc
      have hv : is_compatible_exactly v d = false := h v (by simp)
      simp only [collectNewer, hv, Bool.false_eq_true, if_false]
      exact ih (fun w hw => h w (by simp [hw])) _

theorem collectNewer_eq_some (pre : List SchemaVer) (a : SchemaVer)
    (rest : List SchemaVer) (d : Data)
    (hpre : ∀ v ∈ pre, is_compatible_exactly v d = false)
    (ha : is_compatible_exactly a d = true) :
    ∀ acc, collectNewer (pre ++ a :: rest) d acc = some (pre.reverse ++ acc) := by
  induction pre with
  | nil => intro acc; simp [collectNewer, ha]
  | cons v pre' ih =>
      intro acc
      have hv : is_compatible_exactly v d = false := hpre v (by simp)
      simp only [List.cons_append, collectNewer, hv, Bool.false_eq_true, if_false]
      simpa using ih (fun w hw => hpre w (by simp [hw])) (v :: acc)

/-! ### The collaborator contract on the inherit transforms

Spec §6: each version's inherit transform takes data valid at its predecessor
to data valid at itself; the new shape declares the version's own numbers
(the source's concrete transforms rewrite the `version` field, and
`upgrade` asserts validity after each step in debug builds). -/

/-- The contract between a version and its immediate predecessor. -/
def inheritOKpair (newer older : SchemaVer) : Prop :=
  ∀ d : Data, older.schemaOk d = true →
    newer.schemaOk (newer.inherit d) = true ∧
    (newer.inherit d).version = some (newer.major, newer.minor)

/-- Replaying inherit transforms oldest-to-newest over a contiguous chain
segment takes anchor-valid data to data valid at the segment's newest class,
declaring that class's numbers. -/
theorem foldr_inherit_ok (l : List SchemaVer) :
    ∀ (p a : SchemaVer) (d : Data),
    List.Chain' inheritOKpair ((p :: l) ++ [a]) → a.schemaOk d = true →
    p.schemaOk ((p :: l).foldr (fun v x => v.inherit x) d) = true ∧
    ((p :: l).foldr (fun v x => v.inherit x) d).version = some (p.major, p.minor) := by
  induction l with
  | nil =>
      intro p a d hchain hvalid
      have hpair : inheritOKpair p a := by
        simpa [List.chain'_cons] using hchain.rel_head
      simpa using hpair d hvalid
  | cons q l' ih =>
      intro p a d hchain hvalid
      have hpair : inheritOKpair p q := by
        simpa using hchain.rel_head
      have htail : List.Chain' inheritOKpair ((q :: l') ++ [a]) := by
        simpa using hchain.tail
      have hq := ih q a d htail hvalid
      simpa using hpair _ hq.1

/-! ### The master lemma about `upgrade`

When the data anchors at class `a` and the target class `b` sits `pre`
classes above `a` in one lineage, `upgrade` succeeds, invokes exactly the
transforms of `pre` oldest-to-newest, and (under the metaclass invariants and
the collaborator contracts) yields data valid at and exactly compatible with
`b`.  The hypotheses record: the strictly-increasing majors `MetaVersion`
asserts, the uniform version-extraction collaborator of spec §6, and the
inherit contract. -/

theorem upgrade_master (pre : List SchemaVer) (b a : VersionCls) (d : Data)
    (hlin : lineage b = pre ++ lineage a)
    (hwf : (lineage b).Pairwise (fun x y => y.major < x.major))
    (hget : ∀ v ∈ lineage b, ∀ x : Data, v.get_version x = x.version)
    (hinh : List.Chain' inheritOKpair (lineage b))
    (hcompat : is_compatible_exactly a.self d = true)
    (hvalid : a.self.schemaOk d = true) :
    upgrade b d = .ok (pre.foldr (fun v x => v.inherit x) d) pre.reverse ∧
    b.self.schemaOk (pre.foldr (fun v x => v.inherit x) d) = true ∧
    is_compatible_exactly b.self (pre.foldr (fun v x => v.inherit x) d) = true := by
  have haself : a.self ∈ lineage b := by
    rw [hlin]; exact List.mem_append.mpr (Or.inr (by simp [lineage]))
  -- the declared version of `d` is `a`'s major with a minor at most `a`'s
  have hgeta : a.self.get_version d = d.version := hget a.self haself d
  obtain ⟨M, m, hdv, hM, hm⟩ :
      ∃ M m, d.version = some (M, m) ∧ M = a.self.major ∧ m ≤ a.self.minor := by
    unfold is_compatible_exactly at hcompat
    rw [hgeta] at hcompat
    cases hdv : d.version with
    | none => rw [hdv] at hcompat; simp at hcompat
    | some p =>
        rcases p with ⟨M, m⟩
        rw [hdv] at hcompat
        simp only [Bool.and_eq_true, beq_iff_eq, decide_eq_true_eq] at hcompat
        exact ⟨M, m, rfl, hcompat.1, hcompat.2⟩
  -- no class strictly above the anchor is exactly compatible
  have hpre : ∀ v ∈ pre, is_compatible_exactly v d = false := by
    intro v hv
    have hvin : v ∈ lineage b := by rw [hlin]; exact List.mem_append.mpr (Or.inl hv)
    have hmaj : a.self.major < v.major := by
      rw [hlin, lineage] at hwf
      exact (List.pairwise_append.mp hwf).2.2 v hv a.self (by simp)
    unfold is_compatible_exactly
    rw [hget v hvin d, hdv]
    simp only [Bool.and_eq_false_iff]
    left
    simp only [beq_eq_false_iff_ne, ne_eq]
    omega
  have hanchor : collectNewer (lineage b) d [] = some pre.reverse := by
    rw [hlin]
    simpa [lineage] using collectNewer_eq_some pre a.self a.ancestors d hpre hcompat []
  have hres : upgrade b d =
      .ok (pre.reverse.foldl (fun x v => v.inherit x) d) pre.reverse := by
    unfold upgrade
    rw [hanchor]
  rw [List.foldl_reverse] at hres
  refine ⟨hres, ?_⟩
  cases hp : pre with
  | nil =>
      -- already exactly compatible: `b` and `a` are the same class
      have hba : b.self = a.self := by
        rw [hp] at hlin
        simp only [lineage, List.nil_append, List.cons.injEq] at hlin
        exact hlin.1
      subst hp
      simpa [hba] using And.intro hvalid hcompat
  | cons p l' =>
      have hbp : b.self = p := by
        rw [hp] at hlin
        simp only [lineage, List.cons_append, List.cons.injEq] at hlin
        exact hlin.1
      have hchain : List.Chain' inheritOKpair ((p :: l') ++ [a.self]) := by
        refine hinh.prefix ?_
        refine ⟨a.ancestors, ?_⟩
        rw [hlin, hp, lineage]
        simp
      have hfold := foldr_inherit_ok l' p a.self d hchain hvalid
      subst hp
      refine ⟨by simpa [hbp] using hfold.1, ?_⟩
      unfold is_compatible_exactly
      rw [hget b.self (by simp [lineage]) _, hfold.2, hbp]
      simp

/-! ### Suffix and lineage-chain lemmas -/

/-- Two suffixes of one list are ordered by length. -/
theorem suffix_of_suffix_of_length_le {α : Type} {l l₁ l₂ : List α}
    (h₁ : l₁ <:+ l) (h₂ : l₂ <:+ l) (hlen : l₁.length ≤ l₂.length) :
    l₁ <:+ l₂ := by
  rw [← List.reverse_prefix]
  exact List.prefix_of_prefix_length_le h₁.reverse h₂.reverse (by simpa using hlen)

/-- Two suffixes of one list: one is a suffix of the other. -/
theorem suffix_total_of_suffix {α : Type} {l l₁ l₂ : List α}
    (h₁ : l₁ <:+ l) (h₂ : l₂ <:+ l) : l₁ <:+ l₂ ∨ l₂ <:+ l₁ := by
  rcases Nat.le_total l₁.length l₂.length with h | h
  · exact Or.inl (suffix_of_suffix_of_length_le h₁ h₂ h)
  · exact Or.inr (suffix_of_suffix_of_length_le h₂ h₁ h)

/-- Each class the lineage generator yields carries a chain that is a suffix
of the head class's chain. -/
theorem lineage_suffix_of_mem_chainsFrom :
    ∀ (l : List SchemaVer) (s : SchemaVer) (v : VersionCls),
    v ∈ chainsFrom s l → lineage v <:+ s :: l := by
  intro l
  induction l with
  | nil =>
      intro s v hv
      simp only [chainsFrom, List.mem_singleton] at hv
      subst hv
      simp [lineage]
  | cons a rest ih =>
      intro s v hv
      simp only [chainsFrom, List.mem_cons] at hv
      rcases hv with hv | hv
      · subst hv; simp [lineage]
      · exact (ih a v hv).trans (by simp)

theorem lineage_suffix_of_mem_lineageChains {c v : VersionCls}
    (hv : v ∈ lineageChains c) : lineage v <:+ lineage c :=
  lineage_suffix_of_mem_chainsFrom c.ancestors c.self v hv

theorem self_mem_lineage_of_mem_lineageChains {c v : VersionCls}
    (hv : v ∈ lineageChains c) : v.self ∈ lineage c :=
  (lineage_suffix_of_mem_lineageChains hv).subset (by simp [lineage])

theorem chainKeys_length (c : VersionCls) :
    (chainKeys c).length = (lineage c).length := by
  simp [chainKeys]

/-- Within one lineage, `issubclass` means chain containment. -/
theorem lineage_suffix_of_issubclass {c a b : VersionCls}
    (ha : a ∈ lineageChains c) (hb : b ∈ lineageChains c)
    (h : issubclass a b = true) : lineage b <:+ lineage a := by
  have hk : chainKeys b <:+ chainKeys a := by
    simpa [issubclass] using h
  have hlen : (lineage b).length ≤ (lineage a).length := by
    rw [← chainKeys_length, ← chainKeys_length]
    exact hk.length_le
  exact suffix_of_suffix_of_length_le
    (lineage_suffix_of_mem_lineageChains hb) (lineage_suffix_of_mem_lineageChains ha) hlen

/-- Within one lineage, any two classes are `issubclass`-comparable. -/
theorem issubclass_total_of_mem {c a b : VersionCls}
    (ha : a ∈ lineageChains c) (hb : b ∈ lineageChains c)
    (h : issubclass a b = false) : issubclass b a = true := by
  have hka : chainKeys a <:+ chainKeys c :=
    (lineage_suffix_of_mem_lineageChains ha).map _
  have hkb : chainKeys b <:+ chainKeys c :=
    (lineage_suffix_of_mem_lineageChains hb).map _
  rcases suffix_total_of_suffix hka hkb with hs | hs
  · simpa [issubclass] using hs
  · exfalso
    have : issubclass a b = true := by simpa [issubclass] using hs
    rw [h] at this
    exact Bool.false_ne_true this

theorem issubclass_refl (a : VersionCls) : issubclass a a = true := by
  simp [issubclass]

theorem issubclass_trans {a b c : VersionCls} (h₁ : issubclass a b = true)
    (h₂ : issubclass b c = true) : issubclass a c = true := by
  simp only [issubclass, decide_eq_true_eq] at *
  exact h₂.trans h₁

/-- `find?` splits its list at the first hit. -/
theorem find?_eq_some_split {α : Type} {p : α → Bool} :
    ∀ {l : List α} {a : α}, l.find? p = some a →
    ∃ l₁ l₂, l = l₁ ++ a :: l₂ ∧ (∀ x ∈ l₁, p x = false) ∧ p a = true := by
  intro l
  induction l with
  | nil => intro a h; simp [List.find?] at h
  | cons x rest ih =>
      intro a h
      by_cases hx : p x = true
      · rw [List.find?_cons_of_pos _ hx] at h
        refine ⟨[], rest, ?_, by simp, ?_⟩
        · simpa using (Option.some.injEq _ _ ▸ h).symm ▸ rfl
        · cases h; exact hx
      · have hx' : p x = false := by simpa using hx
        rw [List.find?_cons_of_neg _ (by simp [hx'])] at h
        obtain ⟨l₁, l₂, hsplit, hall, hpa⟩ := ih h
        exact ⟨x :: l₁, l₂, by simp [hsplit], by
          intro y hy
          rcases List.mem_cons.mp hy with hy | hy
          · subst hy; exact hx'
          · exact hall y hy, hpa⟩

/-! ### A concrete two-version lineage

The example of spec §8: `V1(major=1, minor=0)` and its child
`V2(major=2, minor=0)`, datasets holding a `checkouts` collection.  `V2`'s
inherit transform rewrites the declared version; each version's schema checks
the declared version field. -/

def exV1 : SchemaVer where
  major := 1
  minor := 0
  json := 1
  tree := [("", ["checkouts"]), ("checkouts", [])]
  get_version := fun d => d.version
  inherit := fun d => d
  schemaOk := fun d => d.version == some (1, 0)

def exV2 : SchemaVer where
  major := 2
  minor := 0
  json := 2
  tree := [("", ["checkouts"]), ("checkouts", [])]
  get_version := fun d => d.version
  inherit := fun d => ⟨some (2, 0), d.colls⟩
  schemaOk := fun d => d.version == some (2, 0)

/-- The version class `V1` (the first version, no ancestors). -/
def exC1 : VersionCls := ⟨exV1, []⟩

/-- The version class `V2`, whose direct base is `V1`. -/
def exC2 : VersionCls := ⟨exV2, [exV1]⟩

/-- A dataset valid at `V1`: one checkout record. -/
def exD1 : Data := ⟨some (1, 0), [("checkouts", [7])]⟩

/-! ### Claim C3 -/

/-- Claim C3: for every version `V` and dataset `D`, `is_compatible_exactly`
returns true iff the declared major equals `V.major` and the declared minor is
at most `V.minor` — in particular a strictly lower declared minor within the
same major is accepted; with no parseable declared version it returns false. -/
theorem C3_is_compatible_exactly (v : SchemaVer) (d : Data) :
    (v.get_version d = none → is_compatible_exactly v d = false) ∧
    (∀ M m : Int, v.get_version d = some (M, m) →
      (is_compatible_exactly v d = true ↔ M = v.major ∧ m ≤ v.minor)) := by
  constructor
  · intro h; simp [is_compatible_exactly, h]
  · intro M m h; simp [is_compatible_exactly, h]

/-! ### Claim C4 -/

/-- Claim C4: `get_exactly_compatible` walks the lineage newest-to-oldest and
returns the first version exactly compatible with the data: a returned version
splits the walked chain into strictly newer versions, all incompatible, and
itself, compatible; `none` comes back iff no version of the lineage is
compatible, and in particular whenever the declared major/minor are absent or
unparseable at every version. -/
theorem C4_get_exactly_compatible (c : VersionCls) (d : Data) :
    (∀ v, get_exactly_compatible c d = some v →
      ∃ newer older, lineageChains c = newer ++ v :: older ∧
        (∀ w ∈ newer, is_compatible_exactly w.self d = false) ∧
        is_compatible_exactly v.self d = true) ∧
    (get_exactly_compatible c d = none ↔
      ∀ v ∈ lineageChains c, is_compatible_exactly v.self d = false) ∧
    ((∀ v ∈ lineage c, v.get_version d = none) →
      get_exactly_compatible c d = none) := by
  refine ⟨?_, ?_, ?_⟩
  · intro v hv
    obtain ⟨l₁, l₂, hsplit, hall, hv'⟩ := find?_eq_some_split hv
    exact ⟨l₁, l₂, hsplit, hall, hv'⟩
  · unfold get_exactly_compatible
    rw [List.find?_eq_none]
    constructor
    · intro h v hv
      simpa using h v hv
    · intro h v hv
      simp [h v hv]
  · intro h
    unfold get_exactly_compatible
    rw [List.find?_eq_none]
    intro v hv
    have : v.self.get_version d = none :=
      h v.self (self_mem_lineage_of_mem_lineageChains hv)
    simp [is_compatible_exactly, this]

/-! ### Claim C6 -/

/-- Claim C6: `validate` resolves the exactly-compatible version and validates
against that version's schema; when none resolves it validates against the
caller's own schema, so a failure then carries the caller's schema diagnostic
(the error names the caller's schema document), never a generic
unknown-version error. -/
theorem C6_validate (c : VersionCls) (d : Data) :
    (∀ v, get_exactly_compatible c d = some v →
      validate c d = validate_exactly v.self d) ∧
    (get_exactly_compatible c d = none →
      validate c d = validate_exactly c.self d ∧
      (c.self.schemaOk d = false → validate c d = .error c.self.json)) := by
  constructor
  · intro v hv
    unfold validate
    rw [hv]
  · intro h
    unfold validate
    rw [h]
    exact ⟨rfl, fun hbad => by simp [validate_exactly, hbad]⟩

/-! ### Claim C7 -/

/-- A dataset already exactly compatible with the head version makes the
anchor search stop immediately: no transform runs and the data is returned. -/
theorem upgrade_already_compatible (c : VersionCls) (d : Data)
    (h : is_compatible_exactly c.self d = true) : upgrade c d = .ok d [] := by
  have hc : collectNewer (lineage c) d [] = some [] := by
    unfold lineage collectNewer
    simp [h]
  unfold upgrade
  rw [hc]
  rfl

/-- Claim C7: a dataset already exactly compatible with the target version is
returned unchanged (the optional deep copy aside) and zero inherit transforms
are invoked. -/
theorem C7_upgrade_noop (c : VersionCls) (d : Data)
    (h : is_compatible_exactly c.self d = true) : upgrade c d = .ok d [] :=
  upgrade_already_compatible c d h

theorem C7_witness : upgrade exC1 exD1 = .ok exD1 [] :=
  C7_upgrade_noop exC1 exD1 rfl

/-! ### Claim C5 -/

/-- Claim C5 (amended): with no exactly-compatible version anywhere in the
lineage, `upgrade` never returns data; it runs full exact validation against
the target version's own schema, and surfaces that schema's validation error
whenever the schema rejects the data.  In the collaborator-contract-violating
case where the schema unexpectedly accepts the data, the failure is the bare
`assert False` instead of a validation error. -/
theorem C5_upgrade_no_anchor (c : VersionCls) (d : Data)
    (h : ∀ v ∈ lineage c, is_compatible_exactly v d = false) :
    (∀ d' tr, upgrade c d ≠ .ok d' tr) ∧
    (c.self.schemaOk d = false → upgrade c d = .validationError c.self.json) ∧
    (c.self.schemaOk d = true → upgrade c d = .assertFailure) := by
  have hnone : collectNewer (lineage c) d [] = none := collectNewer_eq_none _ d h []
  unfold upgrade
  rw [hnone]
  refine ⟨?_, ?_, ?_⟩
  · intro d' tr hcontra
    by_cases hs : c.self.schemaOk d = true <;> simp [hs] at hcontra
  · intro hs; simp [hs]
  · intro hs; simp [hs]

/-- A version whose schema accepts everything. -/
def cex5V : SchemaVer where
  major := 1
  minor := 0
  json := 5
  tree := [("", [])]
  get_version := fun d => d.version
  inherit := fun d => d
  schemaOk := fun _ => true

def cex5C : VersionCls := ⟨cex5V, []⟩

/-- A dataset with no parseable declared version. -/
def cex5D : Data := ⟨none, []⟩

/-- Claim C5 counterexample: a dataset with no exactly-compatible version in
the lineage whose exact validation at the target nevertheless passes (the
schema accepts everything) makes `upgrade` die on the bare
`assert False, "Data validated unexpectedly"` — a generic failure carrying no
schema-level diagnostic, against the claim's "never fails with a generic error
that lacks the schema-level diagnostic". -/
theorem C5_counterexample :
    is_compatible_exactly cex5V cex5D = false ∧
    cex5V.schemaOk cex5D = true ∧
    upgrade cex5C cex5D = .assertFailure ∧
    upgrade cex5C cex5D ≠ .validationError cex5V.json := by
  refine ⟨rfl, rfl, rfl, ?_⟩
  intro hcontra
  have : UpgradeResult.assertFailure = UpgradeResult.validationError cex5V.json := by
    rw [← hcontra]; rfl
  exact UpgradeResult.noConfusion this

theorem C5_witness :
    (∀ d' tr, upgrade exC2 cex5D ≠ .ok d' tr) ∧
    (exV2.schemaOk cex5D = false →
      upgrade exC2 cex5D = .validationError exV2.json) ∧
    (exV2.schemaOk cex5D = true → upgrade exC2 cex5D = .assertFailure) := by
  refine C5_upgrade_no_anchor exC2 cex5D ?_
  intro v hv
  simp only [lineage, exC2, List.mem_cons, List.mem_singleton, List.not_mem_nil] at hv
  rcases hv with hv | hv | hv
  · subst hv; rfl
  · subst hv; rfl
  · exact absurd hv (by simp)

/-! ### Claim C10 -/

/-- The summation of `count` equals the sum of the lengths of the non-root
collections of the tree that the data declares. -/
theorem countColls_eq_sum (tree : List (String × List String)) (d : Data) :
    countColls tree d =
      (((tree.map Prod.fst).filter
        (fun k => !(k == "") && (d.get k).isSome)).map
        (fun k => ((d.get k).getD []).length)).sum := by
  induction tree with
  | nil => rfl
  | cons p rest ih =>
      rcases p with ⟨k, cs⟩
      by_cases hk : k = ""
      · subst hk
        simpa [countColls] using ih
      · cases hget : d.get k with
        | none => simp [countColls, hk, hget, ih]
        | some l => simp [countColls, hk, hget, ih]

/-- Claim C10: `count` is partial at the interface: with no exactly-compatible
version it produces no number (the `None` resolution's `tree` is dereferenced,
or the validity assertion fires first — an untyped error, not a `0` and not a
`ValidationError`); with a resolution it returns the sum of the lengths of the
non-root collections of the resolved version's tree present in the data. -/
theorem C10_count (c : VersionCls) (d : Data) :
    (count c d = none ↔ get_exactly_compatible c d = none) ∧
    (∀ v, get_exactly_compatible c d = some v →
      count c d = some
        ((((v.self.tree.map Prod.fst).filter
          (fun k => !(k == "") && (d.get k).isSome)).map
          (fun k => ((d.get k).getD []).length)).sum)) := by
  constructor
  · unfold count
    cases h : get_exactly_compatible c d <;> simp [h]
  · intro v hv
    unfold count
    rw [hv]
    simp [countColls_eq_sum]

/-! ### Claim C9 -/

/-- The proper ancestors of a version class, each as a class with its own
chain, newest first. -/
def ancestorChains (c : VersionCls) : List VersionCls :=
  (lineageChains c).tail

/-- The descriptor chains of the classes `chainsFrom` yields are exactly the
nonempty suffixes of the head's descriptor chain. -/
theorem keys_of_chainsFrom :
    ∀ (l : List SchemaVer) (s : SchemaVer) (k : List (Int × Int)),
    (∃ P ∈ chainsFrom s l, chainKeys P = k) ↔
      (k <:+ chainKeys ⟨s, l⟩ ∧ k ≠ []) := by
  intro l
  induction l with
  | nil =>
      intro s k
      constructor
      · intro ⟨P, hP, hk⟩
        simp only [chainsFrom, List.mem_singleton] at hP
        subst hP
        subst hk
        exact ⟨List.suffix_refl _, by simp [chainKeys, lineage]⟩
      · intro ⟨hsuf, hne⟩
        refine ⟨⟨s, []⟩, by simp [chainsFrom], ?_⟩
        rcases List.suffix_cons_iff.mp (by simpa [chainKeys, lineage] using hsuf)
          with h | h
        · simpa [chainKeys, lineage] using h.symm
        · exact absurd (List.suffix_nil.mp h) hne
  | cons a rest ih =>
      intro s k
      have hkeys : chainKeys ⟨s, a :: rest⟩ =
          (s.major, s.minor) :: chainKeys ⟨a, rest⟩ := rfl
      constructor
      · intro ⟨P, hP, hk⟩
        simp only [chainsFrom, List.mem_cons] at hP
        rcases hP with hP | hP
        · subst hP
          subst hk
          exact ⟨List.suffix_refl _, by simp [chainKeys, lineage]⟩
        · obtain ⟨hsuf, hne⟩ := (ih a k).mp ⟨P, hP, hk⟩
          exact ⟨hsuf.trans (by rw [hkeys]; simp), hne⟩
      · intro ⟨hsuf, hne⟩
        rw [hkeys] at hsuf
        rcases List.suffix_cons_iff.mp hsuf with h | h
        · exact ⟨⟨s, a :: rest⟩, by simp [chainsFrom], by rw [hkeys]; exact h.symm⟩
        · obtain ⟨P, hP, hk⟩ := (ih a k).mpr ⟨h, hne⟩
          exact ⟨P, by simp [chainsFrom, hP], hk⟩

/-- A class's descriptor chain is never empty. -/
theorem chainKeys_ne_nil (c : VersionCls) : chainKeys c ≠ [] := by
  simp [chainKeys, lineage]

/-- Descriptor-chain suffix means ancestor-or-self. -/
theorem suffix_iff_ancestor_or_self (A B : VersionCls) :
    chainKeys A <:+ chainKeys B ↔
      (chainKeys A = chainKeys B ∨
        ∃ P ∈ ancestorChains B, chainKeys P = chainKeys A) := by
  rcases B with ⟨s, l⟩
  cases l with
  | nil =>
      constructor
      · intro h
        left
        rcases List.suffix_cons_iff.mp (by simpa [chainKeys, lineage] using h)
          with h' | h'
        · simpa [chainKeys, lineage] using h'
        · exact absurd (List.suffix_nil.mp h') (chainKeys_ne_nil A)
      · intro h
        rcases h with h | ⟨P, hP, _⟩
        · rw [h]
        · simp [ancestorChains, lineageChains, chainsFrom] at hP
  | cons a rest =>
      have hkeys : chainKeys ⟨s, a :: rest⟩ =
          (s.major, s.minor) :: chainKeys ⟨a, rest⟩ := rfl
      have htail : ancestorChains ⟨s, a :: rest⟩ = chainsFrom a rest := rfl
      constructor
      · intro h
        rw [hkeys] at h
        rcases List.suffix_cons_iff.mp h with h' | h'
        · left; rw [hkeys]; exact h'
        · right
          rw [htail]
          obtain ⟨P, hP, hk⟩ :=
            (keys_of_chainsFrom rest a (chainKeys A)).mpr ⟨h', chainKeys_ne_nil A⟩
          exact ⟨P, hP, hk⟩
      · intro h
        rcases h with h | ⟨P, hP, hk⟩
        · rw [h]
        · rw [htail] at hP
          have := ((keys_of_chainsFrom rest a (chainKeys A)).mp ⟨P, hP, hk⟩).1
          rw [hkeys]
          exact this.trans (by simp)

/-- Claim C9: `A ≤ B` returns true exactly when `A` is `B` or an ancestor of
`B` (classes identified by their descriptor chains); comparing two classes
with no ancestor relationship in either direction raises
`NotImplementedError` (`none`) instead of returning a boolean; and the
strict/reflexive variants agree with this lineage order. -/
theorem C9_ordering (A B : VersionCls) :
    (cls_le A B = some true ↔
      (chainKeys A = chainKeys B ∨
        ∃ P ∈ ancestorChains B, chainKeys P = chainKeys A)) ∧
    (cls_le A B = none ↔
      (¬ chainKeys A <:+ chainKeys B ∧ ¬ chainKeys B <:+ chainKeys A)) ∧
    cls_ge A B = cls_le B A ∧
    (cls_lt A B = some true ↔
      cls_le A B = some true ∧ chainKeys A ≠ chainKeys B) ∧
    cls_gt A B = cls_lt B A := by
  have hle : cls_le A B = some true ↔ chainKeys A <:+ chainKeys B := by
    unfold cls_le
    by_cases h₁ : chainKeys A <:+ chainKeys B
    · simp [issubclass, h₁]
    · by_cases h₂ : chainKeys B <:+ chainKeys A <;>
        simp [issubclass, h₁, h₂]
  refine ⟨hle.trans (suffix_iff_ancestor_or_self A B), ?_, ?_, ?_, ?_⟩
  · unfold cls_le
    by_cases h₁ : chainKeys A <:+ chainKeys B <;>
      by_cases h₂ : chainKeys B <:+ chainKeys A <;>
        simp [issubclass, h₁, h₂]
  · unfold cls_ge cls_le
    by_cases h₁ : chainKeys A <:+ chainKeys B <;>
      by_cases h₂ : chainKeys B <:+ chainKeys A <;>
        simp [issubclass, h₁, h₂]
  · rw [hle]
    unfold cls_lt
    by_cases h₁ : chainKeys A <:+ chainKeys B
    · simp [issubclass, h₁]
    · by_cases h₂ : chainKeys B <:+ chainKeys A <;>
        simp [issubclass, h₁, h₂]
  · unfold cls_gt cls_lt
    by_cases h₁ : chainKeys A <:+ chainKeys B <;>
      by_cases h₂ : chainKeys B <:+ chainKeys A <;>
        simp [issubclass, h₁, h₂, ne_comm]

/-! ### Claim C1 -/

/-- Claim C1: for `V2 > V1` in one lineage (`pre` the classes strictly newer
than the anchor `V1`, up to and including `V2`, newest first) and `D1` valid
at `V1`, `upgrade(V2, D1)` succeeds with data valid at `V2` and invokes
exactly the inherit transforms of `pre` in ascending (oldest-to-newest) order
— the returned invocation trace is `pre.reverse`, so no version is skipped
and no transform runs twice.  The hypotheses record the strictly-increasing
majors `MetaVersion` asserts, the uniform version-extraction collaborator of
spec §6, and the contract on the inherit transforms. -/
theorem C1_upgrade_chain (pre : List SchemaVer) (V2 V1 : VersionCls) (D1 : Data)
    (hlin : lineage V2 = pre ++ lineage V1)
    (_hstrict : pre ≠ [])
    (hwf : (lineage V2).Pairwise (fun x y => y.major < x.major))
    (hget : ∀ v ∈ lineage V2, ∀ x : Data, v.get_version x = x.version)
    (hinh : List.Chain' inheritOKpair (lineage V2))
    (hcompat : is_compatible_exactly V1.self D1 = true)
    (hvalid : V1.self.schemaOk D1 = true) :
    ∃ D2, upgrade V2 D1 = .ok D2 pre.reverse ∧ V2.self.schemaOk D2 = true := by
  obtain ⟨h1, h2, _⟩ := upgrade_master pre V2 V1 D1 hlin hwf hget hinh hcompat hvalid
  exact ⟨_, h1, h2⟩

theorem C1_witness :
    ∃ D2, upgrade exC2 exD1 = .ok D2 [exV2].reverse ∧ exV2.schemaOk D2 = true := by
  refine C1_upgrade_chain [exV2] exC2 exC1 exD1 rfl (by simp) ?_ ?_ ?_ rfl rfl
  · refine List.pairwise_cons.mpr ⟨?_, List.pairwise_singleton _ _⟩
    intro v hv
    rw [List.mem_singleton.mp hv]
    show (1 : Int) < 2
    norm_num
  · intro v hv x
    simp only [lineage, exC2, List.mem_cons, List.not_mem_nil, or_false,
      List.mem_singleton] at hv
    rcases hv with hv | hv <;> subst hv <;> rfl
  · refine List.chain'_cons.mpr ⟨?_, List.chain'_singleton _⟩
    intro d h
    exact ⟨rfl, rfl⟩

/-! ### Claim C8 -/

/-- Claim C8: upgrade is idempotent.  For data valid at the target version or
any ancestor (anchor `A`, the `pre` classes strictly above it), the first
upgrade returns some `D'`, and upgrading `D'` again returns `D'` itself with
no transform invoked — so `upgrade(V, upgrade(V, D)) = upgrade(V, D)`. -/
theorem C8_upgrade_idempotent (pre : List SchemaVer) (V A : VersionCls) (D : Data)
    (hlin : lineage V = pre ++ lineage A)
    (hwf : (lineage V).Pairwise (fun x y => y.major < x.major))
    (hget : ∀ v ∈ lineage V, ∀ x : Data, v.get_version x = x.version)
    (hinh : List.Chain' inheritOKpair (lineage V))
    (hcompat : is_compatible_exactly A.self D = true)
    (hvalid : A.self.schemaOk D = true) :
    ∃ D', upgrade V D = .ok D' pre.reverse ∧ upgrade V D' = .ok D' [] := by
  obtain ⟨h1, _, h3⟩ := upgrade_master pre V A D hlin hwf hget hinh hcompat hvalid
  exact ⟨_, h1, upgrade_already_compatible V _ h3⟩

theorem C8_witness :
    ∃ D', upgrade exC2 exD1 = .ok D' [exV2].reverse ∧
      upgrade exC2 D' = .ok D' [] := by
  refine C8_upgrade_idempotent [exV2] exC2 exC1 exD1 rfl ?_ ?_ ?_ rfl rfl
  · refine List.pairwise_cons.mpr ⟨?_, List.pairwise_singleton _ _⟩
    intro v hv
    rw [List.mem_singleton.mp hv]
    show (1 : Int) < 2
    norm_num
  · intro v hv x
    simp only [lineage, exC2, List.mem_cons, List.not_mem_nil, or_false,
      List.mem_singleton] at hv
    rcases hv with hv | hv <;> subst hv <;> rfl
  · refine List.chain'_cons.mpr ⟨?_, List.chain'_singleton _⟩
    intro d h
    exact ⟨rfl, rfl⟩

/-! ### Claim C2 -/

/-- Per-key behaviour of the combination step: for every key of the tree —
the root key included — the source's records are appended after the target's;
keys outside the tree, and tree keys the source does not declare, leave the
target's entry untouched. -/
theorem mergeStep_get (tree : List (String × List String)) :
    ∀ (t s : Data) (k : String), (tree.map Prod.fst).Nodup →
    (mergeStep tree t s).get k =
      if k ∈ tree.map Prod.fst then
        match s.get k with
        | some sv => some (((t.get k).getD []) ++ sv)
        | none => t.get k
      else t.get k := by
  induction tree with
  | nil => intro t s k _; simp [mergeStep]
  | cons p rest ih =>
      intro t s k hnd
      rcases p with ⟨k₀, cs⟩
      have hnd' : (k₀ :: rest.map Prod.fst).Nodup := hnd
      obtain ⟨hk₀, hndr⟩ := List.nodup_cons.mp hnd'
      unfold mergeStep
      cases hs : s.get k₀ with
      | some sv =>
          by_cases hk : k = k₀
          · subst hk
            rw [ih _ s k hndr]
            simp [hk₀, hs, Data.get_set_self]
          · rw [ih _ s k hndr]
            by_cases hmem : k ∈ rest.map Prod.fst <;>
              simp [hmem, hk, Data.get_set_other _ _ _ _ hk]
      | none =>
          by_cases hk : k = k₀
          · subst hk
            rw [ih t s k hndr]
            simp [hk₀, hs]
          · rw [ih t s k hndr]
            by_cases hmem : k ∈ rest.map Prod.fst <;> simp [hmem, hk]

/-- Exact compatibility depends only on the declared version field once the
extraction collaborator reads that field. -/
theorem compat_of_version_eq (v : SchemaVer) (x y : Data)
    (hx : v.get_version x = x.version) (hy : v.get_version y = y.version)
    (hxy : x.version = y.version) :
    is_compatible_exactly v x = is_compatible_exactly v y := by
  unfold is_compatible_exactly
  rw [hx, hy, hxy]

/-- The source loop of `merge` keeps the target valid and exactly compatible
at a working version that only ever moves towards seniority, and ends at the
most senior version seen among the initial working version and the sources'
resolved versions. -/
theorem mergeLoop_master (c : VersionCls)
    (hwf : (lineage c).Pairwise (fun x y => y.major < x.major))
    (hget : ∀ v ∈ lineage c, ∀ x : Data, v.get_version x = x.version)
    (hinh : List.Chain' inheritOKpair (lineage c))
    (hconcat : ∀ v ∈ lineageChains c, ∀ t s : Data,
      v.self.schemaOk t = true → v.self.schemaOk s = true →
      v.self.schemaOk (mergeStep v.self.tree t s) = true) :
    ∀ (sources : List Data) (tv : VersionCls) (t : Data),
      tv ∈ lineageChains c →
      is_compatible_exactly tv.self t = true →
      tv.self.schemaOk t = true →
      (∀ s ∈ sources, ∃ sv, get_exactly_compatible c s = some sv ∧
        sv.self.schemaOk s = true) →
      ∃ r tvf, mergeLoop c (some tv) t sources = some r ∧
        tvf ∈ lineageChains c ∧
        is_compatible_exactly tvf.self r = true ∧
        tvf.self.schemaOk r = true ∧
        issubclass tvf tv = true ∧
        (∀ s ∈ sources, ∀ sv, get_exactly_compatible c s = some sv →
          issubclass tvf sv = true) ∧
        (tvf = tv ∨ ∃ s ∈ sources, get_exactly_compatible c s = some tvf) := by
  intro sources
  induction sources with
  | nil =>
      intro tv t htv hcompat hvalid _
      exact ⟨t, tv, rfl, htv, hcompat, hvalid, issubclass_refl tv,
        by simp, Or.inl rfl⟩
  | cons s rest ih =>
      intro tv t htv hcompat hvalid hsrc
      obtain ⟨sv, hgec, hsvalid⟩ := hsrc s (by simp)
      have hfind : (lineageChains c).find?
          (fun v => is_compatible_exactly v.self s) = some sv := hgec
      have hsv : sv ∈ lineageChains c := List.mem_of_find?_eq_some hfind
      have hscompat : is_compatible_exactly sv.self s = true := by
        simpa using List.find?_some hfind
      have hsvself : sv.self ∈ lineage c := self_mem_lineage_of_mem_lineageChains hsv
      have htvself : tv.self ∈ lineage c := self_mem_lineage_of_mem_lineageChains htv
      have step : mergeLoop c (some tv) t (s :: rest) =
          (if issubclass sv tv then
            match upgrade sv t with
            | .ok t2 _ => mergeLoop c (some sv) (mergeStep sv.self.tree t2 s) rest
            | _ => none
          else
            match upgrade tv s with
            | .ok s2 _ => mergeLoop c (some tv) (mergeStep tv.self.tree t s2) rest
            | _ => none) := by
        simp only [mergeLoop, hgec]
      by_cases hb : issubclass sv tv = true
      · -- the source's version is senior-or-equal: the target is raised to it
        obtain ⟨pre, hpre⟩ := lineage_suffix_of_issubclass hsv htv hb
        have hsuf := lineage_suffix_of_mem_lineageChains hsv
        obtain ⟨hup, hval', hcomp'⟩ :=
          upgrade_master pre sv tv t hpre.symm (hwf.sublist hsuf.sublist)
            (fun v hv x => hget v (hsuf.subset hv) x) (hinh.suffix hsuf)
            hcompat hvalid
        set t' := pre.foldr (fun v x => v.inherit x) t with ht'
        have hm_valid : sv.self.schemaOk (mergeStep sv.self.tree t' s) = true :=
          hconcat sv hsv t' s hval' hsvalid
        have hm_compat :
            is_compatible_exactly sv.self (mergeStep sv.self.tree t' s) = true := by
          rw [compat_of_version_eq sv.self _ t' (hget sv.self hsvself _)
            (hget sv.self hsvself _) (mergeStep_version _ _ _)]
          exact hcomp'
        obtain ⟨r, tvf, hloop, htvf, hrc, hrv, hsub, hall, hfrom⟩ :=
          ih sv (mergeStep sv.self.tree t' s) hsv hm_compat hm_valid
            (fun s' hs' => hsrc s' (by simp [hs']))
        refine ⟨r, tvf, ?_, htvf, hrc, hrv, issubclass_trans hsub hb, ?_, ?_⟩
        · rw [step, hb]
          simp only [if_true]
          rw [hup]
          exact hloop
        · intro s' hs' sv' hgec'
          rcases List.mem_cons.mp hs' with hs' | hs'
          · subst hs'
            rw [hgec] at hgec'
            rw [← Option.some.inj hgec']
            exact hsub
          · exact hall s' hs' sv' hgec'
        · rcases hfrom with heq | ⟨s', hs', h⟩
          · exact Or.inr ⟨s, by simp, by rw [heq]; exact hgec⟩
          · exact Or.inr ⟨s', by simp [hs'], h⟩
      · -- the target's version is strictly senior: the source is raised to it
        have hb' : issubclass sv tv = false := by simpa using hb
        have htb : issubclass tv sv = true := issubclass_total_of_mem hsv htv hb'
        obtain ⟨pre, hpre⟩ := lineage_suffix_of_issubclass htv hsv htb
        have hsuf := lineage_suffix_of_mem_lineageChains htv
        obtain ⟨hup, hval', hcomp'⟩ :=
          upgrade_master pre tv sv s hpre.symm (hwf.sublist hsuf.sublist)
            (fun v hv x => hget v (hsuf.subset hv) x) (hinh.suffix hsuf)
            hscompat hsvalid
        set s' := pre.foldr (fun v x => v.inherit x) s with hs'
        have hm_valid : tv.self.schemaOk (mergeStep tv.self.tree t s') = true :=
          hconcat tv htv t s' hvalid hval'
        have hm_compat :
            is_compatible_exactly tv.self (mergeStep tv.self.tree t s') = true := by
          rw [compat_of_version_eq tv.self _ t (hget tv.self htvself _)
            (hget tv.self htvself _) (mergeStep_version _ _ _)]
          exact hcompat
        obtain ⟨r, tvf, hloop, htvf, hrc, hrv, hsub, hall, hfrom⟩ :=
          ih tv (mergeStep tv.self.tree t s') htv hm_compat hm_valid
            (fun s'' hs'' => hsrc s'' (by simp [hs'']))
        refine ⟨r, tvf, ?_, htvf, hrc, hrv, hsub, ?_, ?_⟩
        · rw [step, hb']
          simp only [Bool.false_eq_true, if_false]
          rw [hup]
          exact hloop
        · intro s'' hs'' sv' hgec'
          rcases List.mem_cons.mp hs'' with hs'' | hs''
          · subst hs''
            rw [hgec] at hgec'
            rw [← Option.some.inj hgec']
            exact issubclass_trans hsub htb
          · exact hall s'' hs'' sv' hgec'
        · rcases hfrom with heq | ⟨s'', hs'', h⟩
          · exact Or.inl heq
          · exact Or.inr ⟨s'', by simp [hs''], h⟩

/-- Claim C2 (amended): for a target and sources all valid at the working
version or an ancestor (all resolving through `get_exactly_compatible`, under
the metaclass invariants and the collaborator contracts — extraction reads the
version field, inherit transforms preserve validity, and the schemas accept
per-collection concatenation), `merge` combines each source by iterating ALL
collection keys of the working version's tree — the root empty-string key
included, it is skipped only when the source does not declare it — appending
the source's records after the target's in order-preserving concatenation,
and returns a dataset valid at and exactly compatible with the most senior
version seen among the target's and the sources' resolved versions. -/
theorem C2_merge (c : VersionCls) (target : Data) (sources : List Data)
    (hwf : (lineage c).Pairwise (fun x y => y.major < x.major))
    (hget : ∀ v ∈ lineage c, ∀ x : Data, v.get_version x = x.version)
    (hinh : List.Chain' inheritOKpair (lineage c))
    (hconcat : ∀ v ∈ lineageChains c, ∀ t s : Data,
      v.self.schemaOk t = true → v.self.schemaOk s = true →
      v.self.schemaOk (mergeStep v.self.tree t s) = true)
    (tv0 : VersionCls)
    (htv0 : get_exactly_compatible c target = some tv0)
    (htvalid : tv0.self.schemaOk target = true)
    (hsrc : ∀ s ∈ sources, ∃ sv, get_exactly_compatible c s = some sv ∧
      sv.self.schemaOk s = true) :
    (∀ (tree : List (String × List String)) (t s : Data) (k : String),
      (tree.map Prod.fst).Nodup →
      (mergeStep tree t s).get k =
        if k ∈ tree.map Prod.fst then
          match s.get k with
          | some sv => some (((t.get k).getD []) ++ sv)
          | none => t.get k
        else t.get k) ∧
    ∃ r tvf, merge c target sources = some r ∧
      tvf ∈ lineageChains c ∧
      tvf.self.schemaOk r = true ∧
      is_compatible_exactly tvf.self r = true ∧
      issubclass tvf tv0 = true ∧
      (∀ s ∈ sources, ∀ sv, get_exactly_compatible c s = some sv →
        issubclass tvf sv = true) ∧
      (tvf = tv0 ∨ ∃ s ∈ sources, get_exactly_compatible c s = some tvf) := by
  have hfind : (lineageChains c).find?
      (fun v => is_compatible_exactly v.self target) = some tv0 := htv0
  have htv0mem : tv0 ∈ lineageChains c := List.mem_of_find?_eq_some hfind
  have htv0compat : is_compatible_exactly tv0.self target = true := by
    simpa using List.find?_some hfind
  refine ⟨fun tree => mergeStep_get tree, ?_⟩
  obtain ⟨r, tvf, hloop, htvf, hrc, hrv, hsub, hall, hfrom⟩ :=
    mergeLoop_master c hwf hget hinh hconcat sources tv0 target
      htv0mem htv0compat htvalid hsrc
  refine ⟨r, tvf, ?_, htvf, hrv, hrc, hsub, hall, hfrom⟩
  unfold merge
  rw [htv0]
  exact hloop

/-- A source dataset valid at `V2`: one checkout record. -/
def exS2 : Data := ⟨some (2, 0), [("checkouts", [9])]⟩

theorem C2_witness :
    ∃ r tvf, merge exC2 exD1 [exS2] = some r ∧
      tvf ∈ lineageChains exC2 ∧
      tvf.self.schemaOk r = true ∧
      is_compatible_exactly tvf.self r = true ∧
      issubclass tvf exC1 = true ∧
      (∀ s ∈ [exS2], ∀ sv, get_exactly_compatible exC2 s = some sv →
        issubclass tvf sv = true) ∧
      (tvf = exC1 ∨ ∃ s ∈ [exS2], get_exactly_compatible exC2 s = some tvf) := by
  refine (C2_merge exC2 exD1 [exS2] ?_ ?_ ?_ ?_ exC1 rfl rfl ?_).2
  · refine List.pairwise_cons.mpr ⟨?_, List.pairwise_singleton _ _⟩
    intro v hv
    rw [List.mem_singleton.mp hv]
    show (1 : Int) < 2
    norm_num
  · intro v hv x
    simp only [lineage, exC2, List.mem_cons, List.not_mem_nil, or_false,
      List.mem_singleton] at hv
    rcases hv with hv | hv <;> subst hv <;> rfl
  · refine List.chain'_cons.mpr ⟨?_, List.chain'_singleton _⟩
    intro d h
    exact ⟨rfl, rfl⟩
  · intro v hv t s h1 h2
    have hv' : v = exC2 ∨ v = exC1 := by
      simpa [lineageChains, chainsFrom, exC2, exC1] using hv
    rcases hv' with hv' | hv' <;> subst hv'
    · show ((mergeStep exV2.tree t s).version == some (2, 0)) = true
      rw [mergeStep_version]
      exact h1
    · show ((mergeStep exV1.tree t s).version == some (1, 0)) = true
      rw [mergeStep_version]
      exact h1
  · intro s hs
    rw [List.mem_singleton.mp hs]
    exact ⟨exC2, rfl, rfl⟩

/-- A single-version lineage whose schema accepts everything, so that a
dataset declaring the root (empty-string) collection is valid. -/
def cex2V : SchemaVer where
  major := 1
  minor := 0
  json := 9
  tree := [("", ["checkouts"]), ("checkouts", [])]
  get_version := fun d => d.version
  inherit := fun d => d
  schemaOk := fun _ => true

def cex2C : VersionCls := ⟨cex2V, []⟩

/-- A merge target declaring no collection at all. -/
def cex2T : Data := ⟨some (1, 0), []⟩

/-- A merge source declaring the root (empty-string) collection. -/
def cex2S : Data := ⟨some (1, 0), [("", [3])]⟩

/-- Claim C2 counterexample: the source iterates every key of the working
version's tree with no exclusion, so a valid source declaring the root
(empty-string) key has that collection copied into the target — the claim's
"iterating ... excluding the root (empty-string) key" predicts the target
stays without it, as the spec-worded `mergeStepSpec` indeed leaves it. -/
theorem C2_counterexample :
    is_valid cex2C cex2T = true ∧
    is_valid cex2C cex2S = true ∧
    merge cex2C cex2T [cex2S] = some ⟨some (1, 0), [("", [3])]⟩ ∧
    (mergeStepSpec cex2V.tree cex2T cex2S).get "" = none ∧
    mergeStep cex2V.tree cex2T cex2S ≠ mergeStepSpec cex2V.tree cex2T cex2S := by
  refine ⟨rfl, rfl, rfl, rfl, ?_⟩
  intro h
  have h3 : (mergeStep cex2V.tree cex2T cex2S).get "" = some [3] := rfl
  have h4 : (mergeStepSpec cex2V.tree cex2T cex2S).get "" = none := rfl
  rw [h, h4] at h3
  exact Option.noConfusion h3

end KcidbIo
